import Mathlib

/-!
# Verification of the Hybrid Retrieval & Reranking Engine

A shallow embedding of `ChatBot/retriever.py`: query expansion over the legal
synonym table, BM25-leg selection and normalization, dense-score normalization,
reciprocal-rank fusion, reranking, and the public `search` orchestration.

Modelling conventions:
* Python floats are modelled as exact rationals (`ℚ`).
* `rank_bm25.BM25Okapi.get_scores` is external library code; it is modelled as
  an explicit parameter `getScores : List String → List ℚ` mapping a tokenized
  query to the per-document score vector.
* The ChromaDB vector store (`similarity_search_with_score`) is an external
  collaborator; it is modelled as a parameter
  `adapter : String → ℕ → Option Filter → List (Document × ℚ)` returning
  `(document, distance)` pairs.
* Python's built-in string `hash` (process-seeded) is a parameter
  `pyHash : String → Int`.
* Python `sorted(..., key=..., reverse=True)` and `list.sort` are stable;
  they are modelled by `pySortDesc`, a merge sort over the list paired with
  its positions, ordered lexicographically by (descending key, ascending
  original position) — exactly the stable descending sort.
* `np.argsort` (ascending, ties kept in index order as numpy's insertion sort
  does on the small candidate arrays in play) is modelled by `argsortAsc`.
-/

set_option autoImplicit false

universe u

variable {α : Type u} {β : Type u}

namespace PakLaw

/-- A LangChain `Document`: page content plus a string-keyed metadata map
(`metadata.get` is first-match lookup; the dicts built by ingestion have
unique keys). -/
structure Document where
  content : String
  metadata : List (String × String)
deriving DecidableEq, Inhabited

/-- A metadata filter: required `(key, value)` pairs. -/
abbrev MetaFilter := List (String × String)

/-- A `(document, score)` pair. -/
abbrev ScoredDoc := Document × ℚ

/-- Python `doc.metadata.get(key)`. -/
def metaGet (d : Document) (k : String) : Option String :=
  d.metadata.lookup k

/-- Membership test of `needle` as a contiguous sublist of `hay`. -/
def infixCheck (needle : List Char) : List Char → Bool
  | [] => needle.isEmpty
  | c :: cs => needle.isPrefixOf (c :: cs) || infixCheck needle cs

/-- Python's substring test `needle in hay`. -/
def strContains (hay needle : String) : Bool :=
  infixCheck needle.data hay.data

/-- Python `str.lower()` (ASCII data; structural so the kernel can reduce it). -/
def pyLower (s : String) : String :=
  String.mk (s.data.map Char.toLower)

/-- Python `s[:n]` (slicing by characters). -/
def pyTake (s : String) (n : ℕ) : String :=
  String.mk (s.data.take n)

/-- Python `sep.join(parts)`. -/
def strJoin (sep : String) : List String → String
  | [] => ""
  | [s] => s
  | s :: rest => s ++ sep ++ strJoin sep rest

/-- A regex `\w` word character (the corpus and queries are ASCII). -/
def isWordChar (c : Char) : Bool :=
  c.isAlphanum || c == '_'

/-- One step of run-splitting: accumulate word characters into the current
run, flush the run on a non-word character. -/
def tokenStep (acc : List String × List Char) (c : Char) : List String × List Char :=
  if isWordChar c then (acc.1, acc.2 ++ [c])
  else if acc.2.isEmpty then (acc.1, [])
  else (acc.1 ++ [String.mk acc.2], [])

/-- Embedding of `HybridRetriever._tokenize`: lowercase, then `re.findall(r'\b\w+\b', ...)`,
i.e. the maximal runs of word characters. -/
def tokenize (text : String) : List String :=
  let r := (pyLower text).data.foldl tokenStep ([], [])
  if r.2.isEmpty then r.1 else r.1 ++ [String.mk r.2]

/-- The module-level `LEGAL_SYNONYMS` table, in source order (Python dicts
iterate in insertion order). -/
def LEGAL_SYNONYMS : List (String × List String) := [
  ("theft", ["stealing", "robbery", "larceny", "PPC Section 379", "dishonest misappropriation"]),
  ("murder", ["homicide", "killing", "qatl", "PPC Section 302", "culpable homicide"]),
  ("robbery", ["theft", "dacoity", "extortion", "PPC Section 392"]),
  ("kidnapping", ["abduction", "PPC Section 359", "wrongful confinement"]),
  ("fraud", ["cheating", "forgery", "dishonesty", "PPC Section 420", "misrepresentation"]),
  ("bribery", ["corruption", "gratification", "NAB", "anti corruption"]),
  ("assault", ["hurt", "grievous hurt", "battery", "PPC Section 332"]),
  ("bail", ["surety", "bond", "CrPC Section 497", "pre-arrest bail", "post-arrest bail"]),
  ("divorce", ["talaq", "khula", "dissolution of marriage", "family courts act"]),
  ("marriage", ["nikah", "Muslim Family Laws Ordinance", "marriage registration"]),
  ("custody", ["guardianship", "hizanat", "minor", "guardian and wards act"]),
  ("maintenance", ["nafaqa", "alimony", "financial support", "wife maintenance"]),
  ("inheritance", ["succession", "wirasat", "Islamic inheritance", "succession act"]),
  ("dower", ["haq mehr", "mahr", "mehr", "dowry"]),
  ("property", ["land", "real estate", "immovable property", "transfer of property act"]),
  ("rent", ["tenancy", "lease", "landlord tenant", "rent restriction"]),
  ("land", ["property", "agricultural land", "revenue", "land revenue act"]),
  ("eviction", ["ejectment", "removal", "tenant eviction"]),
  ("wages", ["salary", "payment of wages act", "minimum wages", "remuneration"]),
  ("termination", ["dismissal", "removal from service", "wrongful termination"]),
  ("pension", ["retirement benefits", "gratuity", "provident fund"]),
  ("worker", ["employee", "labourer", "workman", "industrial worker"]),
  ("fundamental rights", ["basic rights", "constitutional rights", "Part II", "Article 8 to 28"]),
  ("freedom of speech", ["Article 19", "expression", "free speech", "press freedom"]),
  ("right to education", ["Article 25A", "free education", "compulsory education"]),
  ("equality", ["Article 25", "equal protection", "non-discrimination"]),
  ("cybercrime", ["electronic crime", "PECA", "online crime", "cyber offence"]),
  ("data protection", ["privacy", "personal data", "information security"]),
  ("defamation", ["libel", "slander", "online defamation", "PPC Section 499"]),
  ("FIR", ["first information report", "police report", "complaint", "CrPC Section 154"]),
  ("appeal", ["revision", "review", "appellate", "high court appeal"]),
  ("writ", ["Article 199", "constitutional petition", "mandamus", "habeas corpus"]),
  ("injunction", ["stay order", "restraining order", "temporary injunction"]),
  ("evidence", ["proof", "witness", "Qanun-e-Shahadat", "testimony"]),
  ("contract", ["agreement", "contract act 1872", "breach of contract"]),
  ("tax", ["taxation", "income tax", "sales tax", "FBR", "revenue"]),
  ("company", ["corporation", "companies act", "SECP", "corporate"])]

/-- The `expansions` list built by the loop of `expand_query`: for each
table entry whose canonical term occurs in the lowercased query, the synonyms
not already present case-insensitively, in table order. -/
def expandTerms (query : String) : List String :=
  let queryLower := pyLower query
  LEGAL_SYNONYMS.foldl
    (fun acc p =>
      if strContains queryLower p.1 then
        acc ++ p.2.filter (fun syn => !strContains queryLower (pyLower syn))
      else acc) []

/-- Embedding of `expand_query`: append, to the original query, up to 5 synonyms of the
canonical terms occurring (as substrings) in the lowercased query, skipping
synonyms already present case-insensitively. -/
def expand_query (query : String) : String :=
  let expansions := expandTerms query
  if !expansions.isEmpty then
    query ++ " " ++ strJoin " " (expansions.take 5)
  else query


/-- Embedding of `HybridRetriever._get_doc_id`, the fingerprint
`source + "_" + page + "_" + str(hash(content[:200]))`,
with `pyHash` standing for Python's (process-seeded) string hash. -/
def getDocId (pyHash : String → Int) (d : Document) : String :=
  ((metaGet d "source").getD "") ++ "_" ++ ((metaGet d "page").getD "") ++ "_"
    ++ toString (pyHash (pyTake d.content 200))

/-- The distance-to-similarity normalization `1 / (1 + d)` applied to every
dense result (`HybridRetriever.semantic_search`). -/
def normalizeSim (d : ℚ) : ℚ := 1 / (1 + d)

/-- The dense-search leg: the external vector store returns
`(document, distance)` pairs; each distance is normalized to a similarity. -/
def semantic_search (adapter : String → ℕ → Option MetaFilter → List ScoredDoc)
    (query : String) (k : ℕ) (filter_dict : Option MetaFilter) : List ScoredDoc :=
  (adapter query k filter_dict).map (fun p => (p.1, normalizeSim p.2))

/-! ## Stable sorting

Python's `sorted(..., key=f, reverse=True)` and `list.sort(key=f, reverse=True)`
order by descending key and keep the original relative order of elements with
equal keys. `pySortDesc` realizes exactly that order: merge sort of the
position-enumerated list under the lexicographic (descending key, ascending
position) order, which is total, so the sort is the unique such ordering. -/

/-- Insert `a` into `l` before the first element `b` with `le a b`. -/
def insertLe (le : α → α → Bool) (a : α) : List α → List α
  | [] => [a]
  | b :: l => if le a b then a :: b :: l else b :: insertLe le a l

/-- Sorting by repeated insertion. Applied below only to total orders
(lexicographic key/position comparisons), for which every correct sort —
in particular CPython's and numpy's — returns this same unique ordering. -/
def sortLe (le : α → α → Bool) : List α → List α
  | [] => []
  | a :: l => insertLe le a (sortLe le l)

/-- Comparison on position-enumerated elements: strictly larger key first,
ties by original position. -/
def pyLe (f : α → ℚ) (a b : ℕ × α) : Bool :=
  decide (f b.2 < f a.2) || (decide (f a.2 = f b.2) && decide (a.1 ≤ b.1))

/-- Python's stable descending sort by the key `f`. -/
def pySortDesc (f : α → ℚ) (l : List α) : List α :=
  (sortLe (pyLe f) l.enum).map Prod.snd

/-- Position of the first occurrence of `a` in a list (length of the list
when absent). -/
def idxOfEq [DecidableEq α] (a : α) : List α → ℕ
  | [] => 0
  | b :: l => if a = b then 0 else idxOfEq a l + 1

/-! ## BM25 leg -/

/-- The order `np.argsort` produces on the score vector's indices:
ascending score, ties in index order. -/
def scoreIdxLe (s : List ℚ) (i j : ℕ) : Bool :=
  decide (s.getD i 0 < s.getD j 0) ||
    (decide (s.getD i 0 = s.getD j 0) && decide (i ≤ j))

/-- Embedding of `np.argsort` on the score vector: ascending scores, ties in index order
(numpy's introsort runs as a stable insertion sort on arrays of the size this
code ever selects from, and this tie order is what the repository's behaviour
exhibits). -/
def argsortAsc (s : List ℚ) : List ℕ :=
  sortLe (scoreIdxLe s) (List.range s.length)

/-- The indices the BM25 leg keeps: `np.argsort(scores)[::-1][:k]` filtered to
strictly positive scores. -/
def bm25TopIdx (scores : List ℚ) (k : ℕ) : List ℕ :=
  ((argsortAsc scores).reverse.take k).filter (fun i => decide (0 < scores.getD i 0))

/-- Embedding of `HybridRetriever.bm25_search`: score the tokenized query (via the external
`BM25Okapi.get_scores`, modelled by `getScores`), keep the top-`k` strictly
positive scores in descending order, and rescale them by their maximum. -/
def bm25_search (docs : List Document) (getScores : List String → List ℚ)
    (query : String) (k : ℕ) : List ScoredDoc :=
  if docs.isEmpty then []
  else
    let scores := getScores (tokenize query)
    let results := (bm25TopIdx scores k).map
      (fun i => (docs.getD i default, scores.getD i 0))
    match results with
    | [] => []
    | r :: rs =>
      let maxScore := (rs.map Prod.snd).foldl max r.2
      if 0 < maxScore then (r :: rs).map (fun p => (p.1, p.2 / maxScore))
      else r :: rs

/-- The raw (pre-normalization) BM25 result list of `bm25_search`. -/
def bm25Raw (docs : List Document) (scores : List ℚ) (k : ℕ) : List ScoredDoc :=
  (bm25TopIdx scores k).map (fun i => (docs.getD i default, scores.getD i 0))

/-! ## Reciprocal rank fusion (`HybridRetriever._combine_results`) -/

/-- The two dict accumulators of `_combine_results`: `doc_scores` (fingerprint
to accumulated RRF score) and `doc_objects` (fingerprint to a Document),
as insertion-ordered association lists. -/
structure AccState where
  scores : List (String × ℚ)
  objs : List (String × Document)
deriving DecidableEq, Inhabited

/-- Python `m[id] = m.get(id, 0) + v` on an insertion-ordered dict: update
the entry in place if the key is present, else append it. -/
def updateAdd : List (String × ℚ) → String → ℚ → List (String × ℚ)
  | [], id, v => [(id, v)]
  | p :: m, id, v =>
    if p.1 == id then (p.1, p.2 + v) :: m else p :: updateAdd m id v

/-- Python `m[id] = d` on an insertion-ordered dict (unconditional overwrite,
as in the semantic loop of `_combine_results`). -/
def objSet : List (String × Document) → String → Document → List (String × Document)
  | [], id, d => [(id, d)]
  | p :: m, id, d =>
    if p.1 == id then (p.1, d) :: m else p :: objSet m id d

/-- Python `if id not in m: m[id] = d`, as in the BM25 loop of
`_combine_results`. -/
def objSetIfAbsent : List (String × Document) → String → Document → List (String × Document)
  | [], id, d => [(id, d)]
  | p :: m, id, d =>
    if p.1 == id then p :: m else p :: objSetIfAbsent m id d

/-- One enumerated-list pass of `_combine_results` (a `for rank, (doc, _) in
enumerate(...)` loop): add `w * (1 / (rank + 60))` to the fingerprint's
accumulated score and record the Document object (`overwrite` distinguishes
the semantic loop from the BM25 loop). -/
def rrfFold (pyHash : String → Int) (w : ℚ) (overwrite : Bool) :
    List (ℕ × ScoredDoc) → AccState → AccState
  | [], st => st
  | e :: es, st =>
    rrfFold pyHash w overwrite es
      { scores := updateAdd st.scores (getDocId pyHash e.2.1)
          (w * (1 / ((e.1 : ℚ) + 60)))
        objs :=
          if overwrite then objSet st.objs (getDocId pyHash e.2.1) e.2.1
          else objSetIfAbsent st.objs (getDocId pyHash e.2.1) e.2.1 }

/-- The accumulator after both loops of `_combine_results`: semantic results
first with weight 0.6, then BM25 results with weight 0.4. -/
def fusedAcc (pyHash : String → Int) (semList bmList : List ScoredDoc) : AccState :=
  rrfFold pyHash (2/5) false bmList.enum
    (rrfFold pyHash (3/5) true semList.enum ⟨[], []⟩)

/-- The fused `(document, accumulated score)` list, in fingerprint
first-encounter order (semantic list processed first). -/
def fusedPairs (pyHash : String → Int) (semList bmList : List ScoredDoc) :
    List ScoredDoc :=
  let st := fusedAcc pyHash semList bmList
  st.scores.map (fun p => ((st.objs.lookup p.1).getD default, p.2))

/-- Embedding of `HybridRetriever._combine_results`: weighted RRF accumulation by
fingerprint, stable descending sort by accumulated score, truncation to `k`. -/
def combineResults (pyHash : String → Int) (semList bmList : List ScoredDoc)
    (k : ℕ) : List ScoredDoc :=
  (pySortDesc Prod.snd (fusedPairs pyHash semList bmList)).take k

/-- Python `m.get(id, 0)` on the score dict. -/
def scoreOf (m : List (String × ℚ)) (id : String) : ℚ :=
  (m.lookup id).getD 0

/-! ## Reranking and the orchestrator -/

/-- The loop body of `HybridRetriever.rerank` for one document: the
keyword-overlap bonus `min(overlap * 0.02, 0.2)` (overlap of the query's
token set with the token set of the first 500 characters of the content),
plus a flat `0.15` added when the lowercased query occurs as a substring of
the full lowercased content. -/
def rerankScore (query : String) (d : Document) : ℚ :=
  let queryTokens := (tokenize query).dedup
  let docTokens := tokenize (pyTake d.content 500)
  let overlap := (queryTokens.filter (fun t => docTokens.contains t)).length
  let keywordBonus := min ((overlap : ℚ) * (1/50)) (1/5)
  if strContains (pyLower d.content) (pyLower query) then keywordBonus + 3/20
  else keywordBonus

/-- The rerank bonus as the spec words it: the capped overlap bonus plus a
separate phrase bonus of `0.15` or `0`. -/
def rerankBonus (query : String) (d : Document) : ℚ :=
  let queryTokens := (tokenize query).dedup
  let docTokens := tokenize (pyTake d.content 500)
  let overlap := (queryTokens.filter (fun t => docTokens.contains t)).length
  min ((overlap : ℚ) * (1/50)) (1/5) +
    (if strContains (pyLower d.content) (pyLower query) then 3/20 else 0)

/-- Embedding of `HybridRetriever.rerank`: add each candidate's bonus to its fused score,
then stable-sort descending and truncate. -/
def rerank (query : String) (documents : List ScoredDoc) (top_k : ℕ) :
    List ScoredDoc :=
  (pySortDesc Prod.snd
    (documents.map (fun p => (p.1, p.2 + rerankScore query p.1)))).take top_k

/-- Python `all(doc.metadata.get(k) == v for k, v in filter_dict.items())`:
a missing key yields `None`, which never equals a required value. -/
def matchesFilter (fd : MetaFilter) (d : Document) : Bool :=
  fd.all (fun kv => metaGet d kv.1 == some kv.2)

/-- The `if filter_dict and bm25_results:` block of `search`: when a
non-empty filter and non-empty BM25 results are present, keep only the
BM25 results whose metadata matches every filter pair. -/
def bmFiltered (filter_dict : Option MetaFilter) (bm : List ScoredDoc) :
    List ScoredDoc :=
  match filter_dict with
  | some fd =>
    if !fd.isEmpty && !bm.isEmpty then bm.filter (fun p => matchesFilter fd p.1)
    else bm
  | none => bm

/-- The candidate list `search` builds before the rerank step: the fused
hybrid candidates when BM25 is available (`use_hybrid` and nonempty corpus),
else the dense-only results. `qDense` is the query the dense leg receives
and `qLex` the query the BM25 leg receives. -/
def searchCandidates (pyHash : String → Int) (docs : List Document)
    (getScores : List String → List ℚ)
    (adapter : String → ℕ → Option MetaFilter → List ScoredDoc)
    (qDense qLex : String) (k : ℕ) (use_hybrid use_rerank : Bool)
    (filter_dict : Option MetaFilter) : List ScoredDoc :=
  if use_hybrid && !docs.isEmpty then
    combineResults pyHash
      (semantic_search adapter qDense (k * 2) filter_dict)
      (bmFiltered filter_dict (bm25_search docs getScores qLex (k * 2)))
      (if use_rerank then k * 2 else k)
  else
    semantic_search adapter qDense (if use_rerank then k * 2 else k) filter_dict

/-- The pipeline with the query seen by each stage made explicit: `qDense`
goes to the dense leg, `qLex` to the BM25 leg, `qRerank` to the reranker. -/
def searchStaged (pyHash : String → Int) (docs : List Document)
    (getScores : List String → List ℚ)
    (adapter : String → ℕ → Option MetaFilter → List ScoredDoc)
    (qDense qLex qRerank : String) (k : ℕ) (use_hybrid use_rerank : Bool)
    (filter_dict : Option MetaFilter) : List Document :=
  let results := searchCandidates pyHash docs getScores adapter qDense qLex k
    use_hybrid use_rerank filter_dict
  let results :=
    if use_rerank && !results.isEmpty then rerank qRerank results k else results
  (results.take k).map Prod.fst

/-- Embedding of `HybridRetriever.search`: expansion, the two legs (the BM25 leg on the
expanded query, the dense leg and reranker on the original), BM25-side
filtering, fusion, reranking, truncation. `docs` is the corpus the
constructor indexed (`self.bm25 is not None` iff it is nonempty). -/
def search (pyHash : String → Int) (docs : List Document)
    (getScores : List String → List ℚ)
    (adapter : String → ℕ → Option MetaFilter → List ScoredDoc)
    (query : String) (k : ℕ) (use_hybrid use_rerank : Bool)
    (filter_dict : Option MetaFilter) : List Document :=
  let expanded := expand_query query
  let results := searchCandidates pyHash docs getScores adapter query expanded k
    use_hybrid use_rerank filter_dict
  let results :=
    if use_rerank && !results.isEmpty then rerank query results k else results
  (results.take k).map Prod.fst

/-! ## Concrete instances used by the counterexamples and witnesses -/

/-- A fixed (process-level) Python string hash used for the concrete
instantiations: every content prefix hashes to 0. -/
def hash0 : String → Int := fun _ => 0

/-- C9 counterexample corpus: two non-matching documents that outscore the
single matching one. -/
def c9Doc1 : Document := ⟨"u v", [("source", "s1"), ("category", "y")]⟩

/-- Second non-matching document of the C9 counterexample. -/
def c9Doc2 : Document := ⟨"u w", [("source", "s2"), ("category", "y")]⟩

/-- The filter-matching document of the C9 counterexample. -/
def c9Doc3 : Document := ⟨"u x", [("source", "s3"), ("category", "x")]⟩

/-- Matching document for the C9 witness. -/
def c9WitDoc : Document := ⟨"m", [("source", "sm"), ("category", "x")]⟩

/-- Two documents that can receive equal positive BM25 scores (e.g. both
sharing exactly the query term). -/
def cexDocA : Document := ⟨"a c", [("source", "sa"), ("page", "0")]⟩

/-- Companion document for the C2 counterexample. -/
def cexDocB : Document := ⟨"b c", [("source", "sb"), ("page", "0")]⟩

/-- Corpus document for the C10 witness. -/
def w10Doc : Document := ⟨"w", [("source", "w10")]⟩

/-- A document the dense store can return twice (ingested twice, identical
content and metadata, hence identical fingerprint for every hash). -/
def c1DupDoc : Document := ⟨"a", [("source", "s"), ("page", "1")]⟩

/-- Corpus document for the C1 witness. -/
def c1WitDoc : Document := ⟨"w", [("source", "w1")]⟩

/-- The concrete semantic-leg documents of the C3 counterexample: 31
documents with distinct sources. -/
def c3SemDoc (i : ℕ) : Document := ⟨"c", [("source", "s" ++ toString i)]⟩

/-- The single BM25-leg document of the C3 counterexample. -/
def c3BmDoc : Document := ⟨"c", [("source", "bb")]⟩

/-- The semantic input list of the C3 counterexample. -/
def c3SemList : List ScoredDoc := (List.range 31).map (fun i => (c3SemDoc i, 1))

/-- The BM25 input list of the C3 counterexample. -/
def c3BmList : List ScoredDoc := [(c3BmDoc, 1)]

/-- First document of the C6 witness. -/
def c6DocA : Document := ⟨"a", [("source", "wa")]⟩

/-- Second document of the C6 witness. -/
def c6DocB : Document := ⟨"b", [("source", "wb")]⟩

/-! ## Sorting infrastructure lemmas -/

theorem insertLe_perm (le : α → α → Bool) (a : α) (l : List α) :
    (insertLe le a l).Perm (a :: l) := by
  induction l with
  | nil => exact List.Perm.refl _
  | cons b l ih =>
    unfold insertLe
    by_cases h : le a b
    · rw [if_pos h]
    · rw [if_neg h]
      exact (ih.cons b).trans (List.Perm.swap a b l)

theorem sortLe_perm (le : α → α → Bool) (l : List α) : (sortLe le l).Perm l := by
  induction l with
  | nil => exact List.Perm.refl _
  | cons a l ih =>
    exact (insertLe_perm le a (sortLe le l)).trans (ih.cons a)

theorem insertLe_pairwise (le : α → α → Bool)
    (trans : ∀ a b c, le a b → le b c → le a c)
    (total : ∀ a b, le a b || le b a) (a : α) (l : List α)
    (h : l.Pairwise (fun x y => le x y)) :
    (insertLe le a l).Pairwise (fun x y => le x y) := by
  induction l with
  | nil => exact List.pairwise_singleton _ a
  | cons b l ih =>
    rcases List.pairwise_cons.mp h with ⟨hb, hl⟩
    unfold insertLe
    by_cases hab : le a b
    · rw [if_pos hab]
      refine List.pairwise_cons.mpr ⟨?_, h⟩
      intro x hx
      rcases List.mem_cons.mp hx with rfl | hx
      · exact hab
      · exact trans a b x hab (hb x hx)
    · rw [if_neg hab]
      refine List.pairwise_cons.mpr ⟨?_, ih hl⟩
      intro x hx
      have hx' : x ∈ a :: l := (insertLe_perm le a l).mem_iff.mp hx
      rcases List.mem_cons.mp hx' with heq | hx'
      · rw [heq]
        rcases (Bool.or_eq_true _ _).mp (total a b) with h' | h'
        · exact absurd h' hab
        · exact h'
      · exact hb x hx'

theorem sortLe_pairwise (le : α → α → Bool)
    (trans : ∀ a b c, le a b → le b c → le a c)
    (total : ∀ a b, le a b || le b a) (l : List α) :
    (sortLe le l).Pairwise (fun x y => le x y) := by
  induction l with
  | nil => exact List.Pairwise.nil
  | cons a l ih => exact insertLe_pairwise le trans total a (sortLe le l) ih

theorem pyLe_total (f : α → ℚ) (a b : ℕ × α) : pyLe f a b || pyLe f b a := by
  simp only [pyLe, Bool.or_eq_true, Bool.and_eq_true, decide_eq_true_eq]
  rcases lt_trichotomy (f a.2) (f b.2) with h | h | h
  · exact Or.inr (Or.inl h)
  · rcases Nat.le_total a.1 b.1 with h' | h'
    · exact Or.inl (Or.inr ⟨h, h'⟩)
    · exact Or.inr (Or.inr ⟨h.symm, h'⟩)
  · exact Or.inl (Or.inl h)

theorem pyLe_trans (f : α → ℚ) (a b c : ℕ × α) :
    pyLe f a b → pyLe f b c → pyLe f a c := by
  simp only [pyLe, Bool.or_eq_true, Bool.and_eq_true, decide_eq_true_eq]
  rintro (hab | ⟨hab, hab'⟩) (hbc | ⟨hbc, hbc'⟩)
  · exact Or.inl (hbc.trans hab)
  · exact Or.inl (by rw [← hbc]; exact hab)
  · exact Or.inl (by rw [hab]; exact hbc)
  · exact Or.inr ⟨hab.trans hbc, hab'.trans hbc'⟩

theorem pySortDesc_perm (f : α → ℚ) (l : List α) : (pySortDesc f l).Perm l := by
  have h := (sortLe_perm (pyLe f) l.enum).map Prod.snd
  rwa [List.enum_map_snd] at h

/-- The sorted enumerated list is strictly decreasing in the lexicographic
(key, reversed position) sense: stability made explicit. -/
theorem pySortDesc_enum_pairwise (f : α → ℚ) (l : List α) :
    (sortLe (pyLe f) l.enum).Pairwise
      (fun a b => f b.2 < f a.2 ∨ (f a.2 = f b.2 ∧ a.1 < b.1)) := by
  have hs : (sortLe (pyLe f) l.enum).Pairwise (fun a b => pyLe f a b) :=
    sortLe_pairwise (pyLe f) (pyLe_trans f) (pyLe_total f) l.enum
  have hnd : ((sortLe (pyLe f) l.enum).map Prod.fst).Nodup := by
    have hp := (sortLe_perm (pyLe f) l.enum).map Prod.fst
    exact hp.nodup_iff.mpr (List.nodup_enum_map_fst l)
  have hne : (sortLe (pyLe f) l.enum).Pairwise (fun a b => a.1 ≠ b.1) :=
    List.pairwise_map.mp hnd
  refine (hs.and hne).imp ?_
  rintro a b ⟨hle, hab⟩
  simp only [pyLe, Bool.or_eq_true, Bool.and_eq_true, decide_eq_true_eq] at hle
  rcases hle with h | ⟨h1, h2⟩
  · exact Or.inl h
  · exact Or.inr ⟨h1, lt_of_le_of_ne h2 hab⟩

theorem pySortDesc_sorted (f : α → ℚ) (l : List α) :
    (pySortDesc f l).Pairwise (fun a b => f b ≤ f a) := by
  unfold pySortDesc
  rw [List.pairwise_map]
  exact (pySortDesc_enum_pairwise f l).imp
    (by rintro a b (h | ⟨h, _⟩); exacts [le_of_lt h, le_of_eq h.symm])

/-- On a duplicate-free list, an enumerated entry's rank is the position of
its value. -/
theorem idxOfEq_enum [DecidableEq α] (l : List α) (hl : l.Nodup) :
    ∀ p ∈ l.enum, idxOfEq p.2 l = p.1 := by
  induction l with
  | nil =>
    intro p hp
    exact absurd hp (List.not_mem_nil p)
  | cons a l ih =>
    intro p hp
    rw [List.enum_cons'] at hp
    rcases List.mem_cons.mp hp with heq | hmem
    · rw [heq]
      simp [idxOfEq]
    · rcases List.mem_map.mp hmem with ⟨q, hq, hqe⟩
      have hq2 : q.2 ∈ l := by
        have := List.mem_map_of_mem Prod.snd hq
        rwa [List.enum_map_snd] at this
      have hne : q.2 ≠ a := by
        intro hc
        exact (List.nodup_cons.mp hl).1 (hc ▸ hq2)
      rw [← hqe]
      show idxOfEq q.2 (a :: l) = q.1 + 1
      unfold idxOfEq
      rw [if_neg hne, ih (List.nodup_cons.mp hl).2 q hq]

/-- On duplicate-free inputs, ties in the stable descending sort are resolved
by the original position. -/
theorem pySortDesc_pairwise_pos [DecidableEq α] (f : α → ℚ) (l : List α)
    (hl : l.Nodup) :
    (pySortDesc f l).Pairwise
      (fun a b => f b < f a ∨ (f a = f b ∧ idxOfEq a l < idxOfEq b l)) := by
  unfold pySortDesc
  rw [List.pairwise_map]
  have hmem : ∀ p ∈ sortLe (pyLe f) l.enum, idxOfEq p.2 l = p.1 := by
    intro p hp
    exact idxOfEq_enum l hl p ((sortLe_perm (pyLe f) l.enum).mem_iff.mp hp)
  refine (pySortDesc_enum_pairwise f l).imp_of_mem ?_
  rintro a b ha hb (h | ⟨h1, h2⟩)
  · exact Or.inl h
  · exact Or.inr ⟨h1, by rw [hmem a ha, hmem b hb]; exact h2⟩

/-! ## BM25-leg lemmas -/

theorem scoreIdxLe_total (s : List ℚ) (i j : ℕ) :
    scoreIdxLe s i j || scoreIdxLe s j i := by
  simp only [scoreIdxLe, Bool.or_eq_true, Bool.and_eq_true, decide_eq_true_eq]
  rcases lt_trichotomy (s.getD i 0) (s.getD j 0) with h | h | h
  · exact Or.inl (Or.inl h)
  · rcases Nat.le_total i j with h' | h'
    · exact Or.inl (Or.inr ⟨h, h'⟩)
    · exact Or.inr (Or.inr ⟨h.symm, h'⟩)
  · exact Or.inr (Or.inl h)

theorem scoreIdxLe_trans (s : List ℚ) (i j m : ℕ) :
    scoreIdxLe s i j → scoreIdxLe s j m → scoreIdxLe s i m := by
  simp only [scoreIdxLe, Bool.or_eq_true, Bool.and_eq_true, decide_eq_true_eq]
  rintro (hab | ⟨hab, hab'⟩) (hbc | ⟨hbc, hbc'⟩)
  · exact Or.inl (hab.trans hbc)
  · exact Or.inl (by rw [← hbc]; exact hab)
  · exact Or.inl (by rw [hab]; exact hbc)
  · exact Or.inr ⟨hab.trans hbc, hab'.trans hbc'⟩

theorem argsortAsc_perm (s : List ℚ) :
    (argsortAsc s).Perm (List.range s.length) :=
  sortLe_perm (scoreIdxLe s) (List.range s.length)

theorem argsortAsc_pairwise (s : List ℚ) :
    (argsortAsc s).Pairwise (fun i j =>
      s.getD i 0 < s.getD j 0 ∨ (s.getD i 0 = s.getD j 0 ∧ i < j)) := by
  have hs : (argsortAsc s).Pairwise (fun i j => scoreIdxLe s i j) :=
    sortLe_pairwise (scoreIdxLe s) (scoreIdxLe_trans s) (scoreIdxLe_total s)
      (List.range s.length)
  have hnd : (argsortAsc s).Nodup :=
    (argsortAsc_perm s).nodup_iff.mpr (List.nodup_range s.length)
  refine (hs.and hnd).imp ?_
  rintro a b ⟨hle, hab⟩
  simp only [scoreIdxLe, Bool.or_eq_true, Bool.and_eq_true, decide_eq_true_eq] at hle
  rcases hle with h | ⟨h1, h2⟩
  · exact Or.inl h
  · exact Or.inr ⟨h1, lt_of_le_of_ne h2 hab⟩

/-- The BM25 leg's selected indices are ordered by strictly descending score
with equal-score ties ordered by strictly descending index. -/
theorem bm25TopIdx_pairwise (s : List ℚ) (k : ℕ) :
    (bm25TopIdx s k).Pairwise (fun i j =>
      s.getD j 0 < s.getD i 0 ∨ (s.getD i 0 = s.getD j 0 ∧ j < i)) := by
  have hrev : (argsortAsc s).reverse.Pairwise (fun i j =>
      s.getD j 0 < s.getD i 0 ∨ (s.getD j 0 = s.getD i 0 ∧ j < i)) :=
    List.pairwise_reverse.mpr (argsortAsc_pairwise s)
  have htake := hrev.sublist (List.take_sublist k (argsortAsc s).reverse)
  have hfil : (bm25TopIdx s k).Pairwise (fun i j =>
      s.getD j 0 < s.getD i 0 ∨ (s.getD j 0 = s.getD i 0 ∧ j < i)) :=
    htake.sublist (List.filter_sublist ((argsortAsc s).reverse.take k))
  exact hfil.imp (by rintro a b (h | ⟨h1, h2⟩); exacts [Or.inl h, Or.inr ⟨h1.symm, h2⟩])

theorem bm25TopIdx_mem (s : List ℚ) (k : ℕ) :
    ∀ i ∈ bm25TopIdx s k, 0 < s.getD i 0 ∧ i < s.length := by
  intro i hi
  rcases List.mem_filter.mp hi with ⟨hmem, hp⟩
  refine ⟨by simpa using hp, ?_⟩
  have h1 : i ∈ (argsortAsc s).reverse := (List.take_sublist _ _).mem hmem
  have h2 : i ∈ argsortAsc s := List.mem_reverse.mp h1
  have h3 : i ∈ List.range s.length := (argsortAsc_perm s).mem_iff.mp h2
  exact List.mem_range.mp h3

theorem foldl_max_of_le (l : List ℚ) (a : ℚ) (h : ∀ x ∈ l, x ≤ a) :
    l.foldl max a = a := by
  induction l with
  | nil => rfl
  | cons x l ih =>
    have hx : max a x = a := max_eq_left (h x (List.mem_cons_self x l))
    simp only [List.foldl_cons, hx]
    exact ih (fun y hy => h y (List.mem_cons_of_mem x hy))

theorem bm25Raw_pos (docs : List Document) (scores : List ℚ) (k : ℕ) :
    ∀ p ∈ bm25Raw docs scores k, 0 < p.2 := by
  intro p hp
  rcases List.mem_map.mp hp with ⟨i, hi, rfl⟩
  exact (bm25TopIdx_mem scores k i hi).1

theorem bm25Raw_sorted (docs : List Document) (scores : List ℚ) (k : ℕ) :
    (bm25Raw docs scores k).Pairwise (fun a b => b.2 ≤ a.2) := by
  unfold bm25Raw
  rw [List.pairwise_map]
  exact (bm25TopIdx_pairwise scores k).imp
    (by rintro a b (h | ⟨h1, _⟩); exacts [le_of_lt h, le_of_eq h1.symm])

/-- Unfolding of `bm25_search` on a nonempty corpus: the raw list rescaled by its
maximum. -/
theorem bm25_search_eq_cases (docs : List Document)
    (getScores : List String → List ℚ) (q : String) (k : ℕ)
    (h : docs.isEmpty = false) :
    bm25_search docs getScores q k =
      match bm25Raw docs (getScores (tokenize q)) k with
      | [] => []
      | r :: rs =>
        if 0 < (rs.map Prod.snd).foldl max r.2 then
          (r :: rs).map (fun p => (p.1, p.2 / (rs.map Prod.snd).foldl max r.2))
        else r :: rs := by
  unfold bm25_search bm25Raw
  rw [h]
  rfl

/-- On a nonempty raw list, the normalizing maximum is the head's score. -/
theorem bm25_max_eq_head (docs : List Document) (scores : List ℚ) (k : ℕ)
    (r : ScoredDoc) (rs : List ScoredDoc)
    (h : bm25Raw docs scores k = r :: rs) :
    (rs.map Prod.snd).foldl max r.2 = r.2 := by
  have hs := bm25Raw_sorted docs scores k
  rw [h] at hs
  rcases List.pairwise_cons.mp hs with ⟨hr, _⟩
  refine foldl_max_of_le _ _ ?_
  intro x hx
  rcases List.mem_map.mp hx with ⟨p, hp, rfl⟩
  exact hr p hp

/-- Evaluation of `bm25_search` on a nonempty corpus with no
positively-scored candidate. -/
theorem bm25_search_eq_nil (docs : List Document)
    (getScores : List String → List ℚ) (q : String) (k : ℕ)
    (h : docs.isEmpty = false)
    (hR : bm25Raw docs (getScores (tokenize q)) k = []) :
    bm25_search docs getScores q k = [] := by
  rw [bm25_search_eq_cases docs getScores q k h, hR]

/-- Evaluation of `bm25_search` on a nonempty corpus with candidates: every score is
divided by the head's (maximal) raw score. -/
theorem bm25_search_eq_cons (docs : List Document)
    (getScores : List String → List ℚ) (q : String) (k : ℕ)
    (r : ScoredDoc) (rs : List ScoredDoc) (h : docs.isEmpty = false)
    (hR : bm25Raw docs (getScores (tokenize q)) k = r :: rs) :
    bm25_search docs getScores q k =
      (r :: rs).map (fun p => (p.1, p.2 / r.2)) := by
  have hpos : 0 < r.2 :=
    bm25Raw_pos docs _ k r (hR ▸ List.mem_cons_self r rs)
  have hmax := bm25_max_eq_head docs _ k r rs hR
  rw [bm25_search_eq_cases docs getScores q k h, hR]
  show (if 0 < (rs.map Prod.snd).foldl max r.2 then
      (r :: rs).map (fun p => (p.1, p.2 / (rs.map Prod.snd).foldl max r.2))
    else r :: rs) = _
  rw [hmax, if_pos hpos]

/-! ## Fusion-stage lemmas -/

theorem mem_map_fst_cons {β : Type} {p : String × β} {m : List (String × β)}
    {id : String} (h : id ∈ (p :: m).map Prod.fst) :
    id = p.1 ∨ id ∈ m.map Prod.fst :=
  List.mem_cons.mp h

theorem not_mem_map_fst_head {β : Type} {p : String × β} {m : List (String × β)}
    {id : String} (h : id ∉ (p :: m).map Prod.fst) : (p.1 == id) = false :=
  beq_eq_false_iff_ne.mpr (fun hc => h (List.mem_cons.mpr (Or.inl hc.symm)))

theorem not_mem_map_fst_tail {β : Type} {p : String × β} {m : List (String × β)}
    {id : String} (h : id ∉ (p :: m).map Prod.fst) : id ∉ m.map Prod.fst :=
  fun hc => h (List.mem_cons.mpr (Or.inr hc))

theorem scoreOf_cons (k : String) (x : ℚ) (m : List (String × ℚ)) (id : String) :
    scoreOf ((k, x) :: m) id = if k = id then x else scoreOf m id := by
  unfold scoreOf
  by_cases h : k = id
  · rw [if_pos h]
    simp [List.lookup, h]
  · rw [if_neg h]
    simp only [List.lookup]
    rw [show (id == k) = false from beq_eq_false_iff_ne.mpr (fun hc => h hc.symm)]

theorem scoreOf_updateAdd (m : List (String × ℚ)) (id : String) (v : ℚ)
    (id' : String) :
    scoreOf (updateAdd m id v) id' =
      scoreOf m id' + (if id' = id then v else 0) := by
  induction m with
  | nil =>
    unfold updateAdd
    rw [scoreOf_cons]
    by_cases h : id' = id
    · rw [if_pos h, if_pos h.symm]
      show v = scoreOf [] id' + v
      unfold scoreOf
      simp [List.lookup]
    · rw [if_neg h, if_neg (fun hc => h hc.symm), add_zero]
  | cons p m ih =>
    rcases p with ⟨pk, pv⟩
    unfold updateAdd
    by_cases hp : (pk, pv).1 == id
    · rw [if_pos hp]
      have hp' : pk = id := by simpa using hp
      rw [scoreOf_cons, scoreOf_cons]
      by_cases h : pk = id'
      · rw [if_pos h, if_pos h, if_pos (h.symm.trans hp')]
      · rw [if_neg h, if_neg h]
        rw [if_neg (fun hc : id' = id => h (hp'.trans hc.symm)), add_zero]
    · rw [if_neg hp]
      rw [scoreOf_cons, scoreOf_cons]
      by_cases h : pk = id'
      · rw [if_pos h, if_pos h]
        have hne : id' ≠ id := fun hc => hp (beq_iff_eq.mpr (h.trans hc))
        rw [if_neg hne, add_zero]
      · rw [if_neg h, if_neg h, ih]

theorem updateAdd_keys_of_mem (m : List (String × ℚ)) (id : String) (v : ℚ)
    (h : id ∈ m.map Prod.fst) :
    (updateAdd m id v).map Prod.fst = m.map Prod.fst := by
  induction m with
  | nil => exact absurd h (List.not_mem_nil id)
  | cons p m ih =>
    unfold updateAdd
    by_cases hp : p.1 == id
    · rw [if_pos hp]
      rfl
    · rw [if_neg hp]
      have hm : id ∈ m.map Prod.fst := by
        rcases mem_map_fst_cons h with heq | hmem
        · exact absurd (beq_iff_eq.mpr heq.symm) hp
        · exact hmem
      simp only [List.map_cons]
      rw [ih hm]

theorem updateAdd_keys_of_not_mem (m : List (String × ℚ)) (id : String) (v : ℚ)
    (h : id ∉ m.map Prod.fst) :
    (updateAdd m id v).map Prod.fst = m.map Prod.fst ++ [id] := by
  induction m with
  | nil => rfl
  | cons p m ih =>
    unfold updateAdd
    rw [if_neg (by simp [not_mem_map_fst_head h])]
    simp only [List.map_cons]
    rw [ih (not_mem_map_fst_tail h)]
    rfl

theorem objSet_keys_of_mem (m : List (String × Document)) (id : String)
    (d : Document) (h : id ∈ m.map Prod.fst) :
    (objSet m id d).map Prod.fst = m.map Prod.fst := by
  induction m with
  | nil => exact absurd h (List.not_mem_nil id)
  | cons p m ih =>
    unfold objSet
    by_cases hp : p.1 == id
    · rw [if_pos hp]
      rfl
    · rw [if_neg hp]
      have hm : id ∈ m.map Prod.fst := by
        rcases mem_map_fst_cons h with heq | hmem
        · exact absurd (beq_iff_eq.mpr heq.symm) hp
        · exact hmem
      simp only [List.map_cons]
      rw [ih hm]

theorem objSet_keys_of_not_mem (m : List (String × Document)) (id : String)
    (d : Document) (h : id ∉ m.map Prod.fst) :
    (objSet m id d).map Prod.fst = m.map Prod.fst ++ [id] := by
  induction m with
  | nil => rfl
  | cons p m ih =>
    unfold objSet
    rw [if_neg (by simp [not_mem_map_fst_head h])]
    simp only [List.map_cons]
    rw [ih (not_mem_map_fst_tail h)]
    rfl

theorem objSetIfAbsent_keys_of_mem (m : List (String × Document)) (id : String)
    (d : Document) (h : id ∈ m.map Prod.fst) :
    (objSetIfAbsent m id d).map Prod.fst = m.map Prod.fst := by
  induction m with
  | nil => exact absurd h (List.not_mem_nil id)
  | cons p m ih =>
    unfold objSetIfAbsent
    by_cases hp : p.1 == id
    · rw [if_pos hp]
    · rw [if_neg hp]
      have hm : id ∈ m.map Prod.fst := by
        rcases mem_map_fst_cons h with heq | hmem
        · exact absurd (beq_iff_eq.mpr heq.symm) hp
        · exact hmem
      simp only [List.map_cons]
      rw [ih hm]

theorem objSetIfAbsent_keys_of_not_mem (m : List (String × Document))
    (id : String) (d : Document) (h : id ∉ m.map Prod.fst) :
    (objSetIfAbsent m id d).map Prod.fst = m.map Prod.fst ++ [id] := by
  induction m with
  | nil => rfl
  | cons p m ih =>
    unfold objSetIfAbsent
    rw [if_neg (by simp [not_mem_map_fst_head h])]
    simp only [List.map_cons]
    rw [ih (not_mem_map_fst_tail h)]
    rfl

theorem objSet_mem (m : List (String × Document)) (id : String) (d : Document) :
    ∀ p ∈ objSet m id d, p ∈ m ∨ p = (id, d) := by
  induction m with
  | nil =>
    intro p hp
    rcases List.mem_singleton.mp hp with rfl
    exact Or.inr rfl
  | cons q m ih =>
    intro p hp
    unfold objSet at hp
    by_cases hq : q.1 == id
    · rw [if_pos hq] at hp
      rcases List.mem_cons.mp hp with heq | hmem
      · have hq' : q.1 = id := by simpa using hq
        rw [heq, hq']
        exact Or.inr rfl
      · exact Or.inl (List.mem_cons_of_mem q hmem)
    · rw [if_neg hq] at hp
      rcases List.mem_cons.mp hp with heq | hmem
      · exact Or.inl (heq ▸ List.mem_cons_self q m)
      · rcases ih p hmem with h | h
        · exact Or.inl (List.mem_cons_of_mem q h)
        · exact Or.inr h

theorem objSetIfAbsent_mem (m : List (String × Document)) (id : String)
    (d : Document) :
    ∀ p ∈ objSetIfAbsent m id d, p ∈ m ∨ p = (id, d) := by
  induction m with
  | nil =>
    intro p hp
    rcases List.mem_singleton.mp hp with rfl
    exact Or.inr rfl
  | cons q m ih =>
    intro p hp
    unfold objSetIfAbsent at hp
    by_cases hq : q.1 == id
    · rw [if_pos hq] at hp
      exact Or.inl hp
    · rw [if_neg hq] at hp
      rcases List.mem_cons.mp hp with heq | hmem
      · exact Or.inl (heq ▸ List.mem_cons_self q m)
      · rcases ih p hmem with h | h
        · exact Or.inl (List.mem_cons_of_mem q h)
        · exact Or.inr h

/-- The accumulation loops preserve the dict invariants: the two dicts share
one key list, keys are duplicate-free, and every stored Document fingerprints
to its key. -/
theorem rrfFold_inv (pyHash : String → Int) (w : ℚ) (ov : Bool)
    (es : List (ℕ × ScoredDoc)) (st : AccState)
    (hkeys : st.scores.map Prod.fst = st.objs.map Prod.fst)
    (hnd : (st.scores.map Prod.fst).Nodup)
    (hid : ∀ p ∈ st.objs, getDocId pyHash p.2 = p.1) :
    ((rrfFold pyHash w ov es st).scores.map Prod.fst =
      (rrfFold pyHash w ov es st).objs.map Prod.fst) ∧
    ((rrfFold pyHash w ov es st).scores.map Prod.fst).Nodup ∧
    (∀ p ∈ (rrfFold pyHash w ov es st).objs, getDocId pyHash p.2 = p.1) := by
  induction es generalizing st with
  | nil => exact ⟨hkeys, hnd, hid⟩
  | cons e es ih =>
    show ((rrfFold pyHash w ov es _).scores.map Prod.fst = _) ∧ _ ∧ _
    set id := getDocId pyHash e.2.1 with hiddef
    set objs' := if ov then objSet st.objs id e.2.1
      else objSetIfAbsent st.objs id e.2.1 with hobjs
    have hobjkeys : objs'.map Prod.fst =
        (if id ∈ st.objs.map Prod.fst then st.objs.map Prod.fst
         else st.objs.map Prod.fst ++ [id]) := by
      by_cases hmem : id ∈ st.objs.map Prod.fst
      · rw [if_pos hmem, hobjs]
        cases ov
        · exact objSetIfAbsent_keys_of_mem st.objs id e.2.1 hmem
        · exact objSet_keys_of_mem st.objs id e.2.1 hmem
      · rw [if_neg hmem, hobjs]
        cases ov
        · exact objSetIfAbsent_keys_of_not_mem st.objs id e.2.1 hmem
        · exact objSet_keys_of_not_mem st.objs id e.2.1 hmem
    have hscorekeys : (updateAdd st.scores id (w * (1 / ((e.1 : ℚ) + 60)))).map Prod.fst =
        (if id ∈ st.objs.map Prod.fst then st.scores.map Prod.fst
         else st.scores.map Prod.fst ++ [id]) := by
      by_cases hmem : id ∈ st.objs.map Prod.fst
      · rw [if_pos hmem]
        exact updateAdd_keys_of_mem st.scores id _ (hkeys ▸ hmem)
      · rw [if_neg hmem]
        exact updateAdd_keys_of_not_mem st.scores id _ (fun hc => hmem (hkeys ▸ hc))
    refine ih _ ?_ ?_ ?_
    · rw [hscorekeys, hobjkeys]
      by_cases hmem : id ∈ st.objs.map Prod.fst
      · rw [if_pos hmem, if_pos hmem, hkeys]
      · rw [if_neg hmem, if_neg hmem, hkeys]
    · rw [hscorekeys]
      by_cases hmem : id ∈ st.objs.map Prod.fst
      · rw [if_pos hmem]
        exact hnd
      · rw [if_neg hmem]
        rw [List.nodup_append]
        refine ⟨hnd, List.nodup_singleton id, ?_⟩
        intro a ha hb
        have ha' : a = id := List.mem_singleton.mp hb
        rw [ha'] at ha
        exact hmem (hkeys ▸ ha)
    · intro p hp
      have hp' : p ∈ st.objs ∨ p = (id, e.2.1) := by
        rw [hobjs] at hp
        cases ov
        · exact objSetIfAbsent_mem st.objs id e.2.1 p hp
        · exact objSet_mem st.objs id e.2.1 p hp
      rcases hp' with h | h
      · exact hid p h
      · rw [h]

/-- The invariants hold for the accumulator `_combine_results` builds. -/
theorem fusedAcc_inv (pyHash : String → Int) (semList bmList : List ScoredDoc) :
    ((fusedAcc pyHash semList bmList).scores.map Prod.fst =
      (fusedAcc pyHash semList bmList).objs.map Prod.fst) ∧
    ((fusedAcc pyHash semList bmList).scores.map Prod.fst).Nodup ∧
    (∀ p ∈ (fusedAcc pyHash semList bmList).objs,
      getDocId pyHash p.2 = p.1) := by
  unfold fusedAcc
  have h0 : ∀ p ∈ (⟨[], []⟩ : AccState).objs, getDocId pyHash p.2 = p.1 := by
    intro p hp
    exact absurd hp (List.not_mem_nil p)
  have h1 := rrfFold_inv pyHash (3/5) true semList.enum ⟨[], []⟩ rfl
    List.nodup_nil h0
  exact rrfFold_inv pyHash (2/5) false bmList.enum _ h1.1 h1.2.1 h1.2.2

theorem lookup_eq_some_of_mem_keys {β : Type} (m : List (String × β))
    (id : String) (h : id ∈ m.map Prod.fst) :
    ∃ b, m.lookup id = some b ∧ (id, b) ∈ m := by
  induction m with
  | nil => exact absurd h (List.not_mem_nil id)
  | cons p m ih =>
    by_cases hp : id == p.1
    · have hp' : id = p.1 := by simpa using hp
      refine ⟨p.2, ?_, ?_⟩
      · simp [List.lookup, hp]
      · rw [List.mem_cons]
        left
        rw [hp']
    · rcases mem_map_fst_cons h with heq | hmem
      · exact absurd (beq_iff_eq.mpr heq) hp
      · obtain ⟨b, hb, hbm⟩ := ih hmem
        refine ⟨b, ?_, List.mem_cons_of_mem p hbm⟩
        simp only [List.lookup]
        rw [show (id == p.1) = false from by simpa using hp]
        exact hb

/-- The fingerprints of the fused pair list are exactly the accumulated key
list (in first-encounter order). -/
theorem fusedPairs_ids (pyHash : String → Int) (semList bmList : List ScoredDoc) :
    (fusedPairs pyHash semList bmList).map (fun p => getDocId pyHash p.1) =
      (fusedAcc pyHash semList bmList).scores.map Prod.fst := by
  obtain ⟨hkeys, hnd, hid⟩ := fusedAcc_inv pyHash semList bmList
  unfold fusedPairs
  rw [List.map_map]
  apply List.map_congr_left
  intro p hp
  have hpk : p.1 ∈ (fusedAcc pyHash semList bmList).objs.map Prod.fst := by
    rw [← hkeys]
    exact List.mem_map_of_mem Prod.fst hp
  obtain ⟨d, hd, hmem⟩ := lookup_eq_some_of_mem_keys _ _ hpk
  show getDocId pyHash
    (((fusedAcc pyHash semList bmList).objs.lookup p.1).getD default) = p.1
  rw [hd]
  exact hid (p.1, d) hmem

theorem fusedPairs_nodup (pyHash : String → Int)
    (semList bmList : List ScoredDoc) :
    (fusedPairs pyHash semList bmList).Nodup := by
  have h := fusedPairs_ids pyHash semList bmList
  have hnd := (fusedAcc_inv pyHash semList bmList).2.1
  rw [← h] at hnd
  exact hnd.of_map _

/-- Every Document object the accumulator stores comes from one of the two
input lists. -/
theorem rrfFold_objs_mem (pyHash : String → Int) (w : ℚ) (ov : Bool)
    (es : List (ℕ × ScoredDoc)) (st : AccState) :
    ∀ p ∈ (rrfFold pyHash w ov es st).objs,
      p ∈ st.objs ∨ p.2 ∈ es.map (fun e => e.2.1) := by
  induction es generalizing st with
  | nil =>
    intro p hp
    exact Or.inl hp
  | cons e es ih =>
    intro p hp
    rcases ih _ p hp with h | h
    · have h' : p ∈ st.objs ∨ p = (getDocId pyHash e.2.1, e.2.1) := by
        by_cases hov : ov
        · rw [hov] at h
          exact objSet_mem st.objs _ e.2.1 p (by simpa using h)
        · rw [Bool.not_eq_true] at hov
          rw [hov] at h
          exact objSetIfAbsent_mem st.objs _ e.2.1 p (by simpa using h)
      rcases h' with h'' | h''
      · exact Or.inl h''
      · right
        rw [h'']
        exact List.mem_map_of_mem _ (List.mem_cons_self e es)
    · right
      rcases List.mem_map.mp h with ⟨e', he', hval⟩
      exact List.mem_map.mpr ⟨e', List.mem_cons_of_mem e he', hval⟩

/-- The rank-indexed documents of an enumerated list are its documents. -/
theorem enum_map_docs (l : List ScoredDoc) :
    l.enum.map (fun e => e.2.1) = l.map Prod.fst := by
  have h : l.enum.map (fun e => e.2.1) = (l.enum.map Prod.snd).map Prod.fst := by
    rw [List.map_map]
    rfl
  rw [h, List.enum_map_snd]

theorem fusedAcc_objs_mem (pyHash : String → Int)
    (semList bmList : List ScoredDoc) :
    ∀ p ∈ (fusedAcc pyHash semList bmList).objs,
      p.2 ∈ semList.map Prod.fst ∨ p.2 ∈ bmList.map Prod.fst := by
  intro p hp
  unfold fusedAcc at hp
  rcases rrfFold_objs_mem pyHash (2/5) false bmList.enum _ p hp with h | h
  · rcases rrfFold_objs_mem pyHash (3/5) true semList.enum ⟨[], []⟩ p h with h' | h'
    · exact absurd h' (List.not_mem_nil p)
    · rw [enum_map_docs] at h'
      exact Or.inl h'
  · rw [enum_map_docs] at h
    exact Or.inr h

/-- The accumulated score of a fingerprint: its previous value plus the
weighted reciprocal-rank contributions of the matching entries. -/
theorem rrfFold_scoreOf (pyHash : String → Int) (w : ℚ) (ov : Bool)
    (es : List (ℕ × ScoredDoc)) (st : AccState) (id : String) :
    scoreOf (rrfFold pyHash w ov es st).scores id =
      scoreOf st.scores id +
        ((es.filter (fun e => getDocId pyHash e.2.1 == id)).map
          (fun e => w * (1 / ((e.1 : ℚ) + 60)))).sum := by
  induction es generalizing st with
  | nil => simp [rrfFold]
  | cons e es ih =>
    show scoreOf (rrfFold pyHash w ov es _).scores id = _
    rw [ih]
    show scoreOf (updateAdd st.scores (getDocId pyHash e.2.1) _) id + _ = _
    rw [scoreOf_updateAdd]
    by_cases hc : getDocId pyHash e.2.1 = id
    · rw [List.filter_cons_of_pos (by simpa using hc), List.map_cons,
        List.sum_cons, if_pos hc.symm]
      ring
    · rw [List.filter_cons_of_neg (by simpa using hc),
        if_neg (fun h => hc h.symm), add_zero]

/-- The fused score of a fingerprint is the weighted sum of its semantic-rank
and BM25-rank contributions. -/
theorem fusedAcc_scoreOf (pyHash : String → Int)
    (semList bmList : List ScoredDoc) (id : String) :
    scoreOf (fusedAcc pyHash semList bmList).scores id =
      ((semList.enum.filter (fun e => getDocId pyHash e.2.1 == id)).map
        (fun e => (3/5 : ℚ) * (1 / ((e.1 : ℚ) + 60)))).sum +
      ((bmList.enum.filter (fun e => getDocId pyHash e.2.1 == id)).map
        (fun e => (2/5 : ℚ) * (1 / ((e.1 : ℚ) + 60)))).sum := by
  unfold fusedAcc
  rw [rrfFold_scoreOf, rrfFold_scoreOf]
  show scoreOf [] id + _ + _ = _
  unfold scoreOf
  simp [List.lookup]

/-! ## Rerank and search lemmas -/

/-- Every reranked candidate's document comes from the input list. -/
theorem rerank_fst_mem (query : String) (l : List ScoredDoc) (top_k : ℕ) :
    ∀ p ∈ rerank query l top_k, p.1 ∈ l.map Prod.fst := by
  intro p hp
  have hp1 : p ∈ pySortDesc Prod.snd
      (l.map (fun p => (p.1, p.2 + rerankScore query p.1))) :=
    (List.take_sublist top_k _).subset hp
  have hp2 : p ∈ l.map (fun p => (p.1, p.2 + rerankScore query p.1)) :=
    (pySortDesc_perm Prod.snd _).mem_iff.mp hp1
  rcases List.mem_map.mp hp2 with ⟨p0, hp0, rfl⟩
  show p0.1 ∈ l.map Prod.fst
  exact List.mem_map_of_mem Prod.fst hp0

/-- Reranking preserves duplicate-freeness of the candidate fingerprints. -/
theorem rerank_ids_nodup (pyHash : String → Int) (query : String)
    (l : List ScoredDoc) (top_k : ℕ)
    (h : (l.map (fun p => getDocId pyHash p.1)).Nodup) :
    ((rerank query l top_k).map (fun p => getDocId pyHash p.1)).Nodup := by
  have hmapeq : (l.map (fun p => (p.1, p.2 + rerankScore query p.1))).map
      (fun p => getDocId pyHash p.1) = l.map (fun p => getDocId pyHash p.1) := by
    rw [List.map_map]
    rfl
  have hperm := (pySortDesc_perm Prod.snd
    (l.map (fun p => (p.1, p.2 + rerankScore query p.1)))).map
      (fun p => getDocId pyHash p.1)
  rw [hmapeq] at hperm
  have hnd : ((pySortDesc Prod.snd
      (l.map (fun p => (p.1, p.2 + rerankScore query p.1)))).map
        (fun p => getDocId pyHash p.1)).Nodup := hperm.nodup_iff.mpr h
  have hsub : ((rerank query l top_k).map (fun p => getDocId pyHash p.1)).Sublist
      ((pySortDesc Prod.snd
        (l.map (fun p => (p.1, p.2 + rerankScore query p.1)))).map
          (fun p => getDocId pyHash p.1)) :=
    (List.take_sublist top_k _).map _
  exact hnd.sublist hsub

/-- Every fused candidate's document comes from one of the two legs. -/
theorem combineResults_fst_mem (pyHash : String → Int)
    (semList bmList : List ScoredDoc) (k : ℕ) :
    ∀ p ∈ combineResults pyHash semList bmList k,
      p.1 ∈ semList.map Prod.fst ∨ p.1 ∈ bmList.map Prod.fst := by
  intro p hp
  have hp1 : p ∈ fusedPairs pyHash semList bmList :=
    (pySortDesc_perm Prod.snd _).mem_iff.mp ((List.take_sublist k _).subset hp)
  unfold fusedPairs at hp1
  rcases List.mem_map.mp hp1 with ⟨sp, hsp, rfl⟩
  obtain ⟨hkeys, -, -⟩ := fusedAcc_inv pyHash semList bmList
  have hpk : sp.1 ∈ (fusedAcc pyHash semList bmList).objs.map Prod.fst := by
    rw [← hkeys]
    exact List.mem_map_of_mem Prod.fst hsp
  obtain ⟨d, hd, hmem⟩ := lookup_eq_some_of_mem_keys _ _ hpk
  show (((fusedAcc pyHash semList bmList).objs.lookup sp.1).getD default)
    ∈ semList.map Prod.fst ∨ _ ∈ bmList.map Prod.fst
  rw [hd]
  exact fusedAcc_objs_mem pyHash semList bmList (sp.1, d) hmem

/-- The fused candidates carry duplicate-free fingerprints. -/
theorem combineResults_ids_nodup (pyHash : String → Int)
    (semList bmList : List ScoredDoc) (k : ℕ) :
    ((combineResults pyHash semList bmList k).map
      (fun p => getDocId pyHash p.1)).Nodup := by
  have hperm := (pySortDesc_perm Prod.snd (fusedPairs pyHash semList bmList)).map
    (fun p => getDocId pyHash p.1)
  have hnd0 : ((fusedPairs pyHash semList bmList).map
      (fun p => getDocId pyHash p.1)).Nodup := by
    rw [fusedPairs_ids]
    exact (fusedAcc_inv pyHash semList bmList).2.1
  have hnd : ((pySortDesc Prod.snd (fusedPairs pyHash semList bmList)).map
      (fun p => getDocId pyHash p.1)).Nodup := hperm.nodup_iff.mpr hnd0
  exact hnd.sublist ((List.take_sublist k _).map _)

/-- Unfolding of `search`: rerank the candidate list when requested and
nonempty, truncate to `k`, drop the scores. -/
theorem search_eq (pyHash : String → Int) (docs : List Document)
    (getScores : List String → List ℚ)
    (adapter : String → ℕ → Option MetaFilter → List ScoredDoc)
    (query : String) (k : ℕ) (uh ur : Bool) (fd : Option MetaFilter) :
    search pyHash docs getScores adapter query k uh ur fd =
      ((if ur && !(searchCandidates pyHash docs getScores adapter query
          (expand_query query) k uh ur fd).isEmpty
        then rerank query (searchCandidates pyHash docs getScores adapter query
          (expand_query query) k uh ur fd) k
        else searchCandidates pyHash docs getScores adapter query
          (expand_query query) k uh ur fd).take k).map Prod.fst := rfl

/-- The candidate stage on a nonempty corpus is the fused hybrid list. -/
theorem searchCandidates_hybrid (pyHash : String → Int) (docs : List Document)
    (getScores : List String → List ℚ)
    (adapter : String → ℕ → Option MetaFilter → List ScoredDoc)
    (qDense qLex : String) (k : ℕ) (ur : Bool) (fd : Option MetaFilter)
    (hd : docs.isEmpty = false) :
    searchCandidates pyHash docs getScores adapter qDense qLex k true ur fd =
      combineResults pyHash (semantic_search adapter qDense (k * 2) fd)
        (bmFiltered fd (bm25_search docs getScores qLex (k * 2)))
        (if ur then k * 2 else k) := by
  unfold searchCandidates
  rw [hd]
  rfl

/-- The candidate stage on an empty corpus is the dense-only list. -/
theorem searchCandidates_fallback (pyHash : String → Int) (docs : List Document)
    (getScores : List String → List ℚ)
    (adapter : String → ℕ → Option MetaFilter → List ScoredDoc)
    (qDense qLex : String) (k : ℕ) (ur : Bool) (fd : Option MetaFilter)
    (hd : docs.isEmpty = true) :
    searchCandidates pyHash docs getScores adapter qDense qLex k true ur fd =
      semantic_search adapter qDense (if ur then k * 2 else k) fd := by
  unfold searchCandidates
  rw [hd]
  rfl

/-- The dense leg keeps the adapter's documents unchanged. -/
theorem semantic_search_fst
    (adapter : String → ℕ → Option MetaFilter → List ScoredDoc)
    (query : String) (k : ℕ) (fd : Option MetaFilter) :
    (semantic_search adapter query k fd).map Prod.fst =
      (adapter query k fd).map Prod.fst := by
  unfold semantic_search
  rw [List.map_map]
  rfl

/-- The dense leg keeps the adapter's fingerprints unchanged. -/
theorem semantic_search_ids (pyHash : String → Int)
    (adapter : String → ℕ → Option MetaFilter → List ScoredDoc)
    (query : String) (k : ℕ) (fd : Option MetaFilter) :
    (semantic_search adapter query k fd).map (fun p => getDocId pyHash p.1) =
      (adapter query k fd).map (fun p => getDocId pyHash p.1) := by
  unfold semantic_search
  rw [List.map_map]
  rfl

/-- Every document surviving the BM25-side filter matches the filter
(vacuously when the filter dict is empty, in which case the code skips
filtering but `matchesFilter` is trivially true). -/
theorem bmFiltered_matches (fd : MetaFilter) (bm : List ScoredDoc) :
    ∀ p ∈ bmFiltered (some fd) bm, matchesFilter fd p.1 = true := by
  intro p hp0
  have hp : p ∈ (if (!fd.isEmpty && !bm.isEmpty) = true
      then bm.filter (fun p => matchesFilter fd p.1) else bm) := hp0
  by_cases h : (!fd.isEmpty && !bm.isEmpty) = true
  · rw [if_pos h] at hp
    exact (List.mem_filter.mp hp).2
  · rw [if_neg h] at hp
    rcases Bool.and_eq_false_iff.mp (Bool.not_eq_true _ |>.mp h) with hf | hb
    · have : fd.isEmpty = true := by
        cases hcase : fd.isEmpty
        · rw [hcase] at hf
          exact absurd hf (by decide)
        · rfl
      rw [List.isEmpty_iff.mp this]
      rfl
    · have : bm.isEmpty = true := by
        cases hcase : bm.isEmpty
        · rw [hcase] at hb
          exact absurd hb (by decide)
        · rfl
      rw [List.isEmpty_iff.mp this] at hp
      exact absurd hp (List.not_mem_nil p)

/-! ## Claim theorems -/

/-- C9 counterexample: the filter is applied to the BM25 leg *after* scoring
and after top-`2k` selection, not before scoring. With `k = 1`, the two
non-matching documents (scores 5 and 4) occupy both candidate slots and are
then filtered away, so `search` returns nothing — although the corpus
contains a document that matches the filter and has a strictly positive
BM25 score (3), which an exclude-before-scoring lexical leg would have
returned. -/
theorem C9_counterexample :
    search hash0 [c9Doc1, c9Doc2, c9Doc3] (fun _ => [5, 4, 3])
      (fun _ _ _ => []) "zz" 1 true true (some [("category", "x")]) = [] ∧
    matchesFilter [("category", "x")] c9Doc3 = true ∧
    0 < ((fun (_ : List String) => [(5 : ℚ), 4, 3]) (tokenize "zz")).getD 2 0 ∧
    c9Doc3 ∈ [c9Doc1, c9Doc2, c9Doc3] := by decide!

/-- C9 (amended): a Document whose metadata lacks a filter key is a
non-match (no exception is possible), and every Document `search` returns
matches every `(key, value)` pair of the filter *provided the dense adapter
honors the filter* (the engine delegates dense-side filtering to the
vector store; the BM25 side is filtered in-engine, after scoring). -/
theorem C9_amended_filter_correctness (pyHash : String → Int)
    (docs : List Document) (getScores : List String → List ℚ)
    (adapter : String → ℕ → Option MetaFilter → List ScoredDoc)
    (query : String) (k : ℕ) (fd : MetaFilter)
    (hA : ∀ p ∈ adapter query (k * 2) (some fd), matchesFilter fd p.1 = true) :
    (∀ d ∈ search pyHash docs getScores adapter query k true true (some fd),
      matchesFilter fd d = true) ∧
    (∀ (d : Document) (kv : String × String), kv ∈ fd →
      metaGet d kv.1 = none → matchesFilter fd d = false) := by
  constructor
  · intro d hd
    rw [search_eq] at hd
    set C := searchCandidates pyHash docs getScores adapter query
      (expand_query query) k true true (some fd) with hCdef
    rcases List.mem_map.mp hd with ⟨p, hp, rfl⟩
    have hp' : p ∈ (if (true && !C.isEmpty) = true then rerank query C k
        else C) := (List.take_sublist k _).subset hp
    have hpC : p.1 ∈ C.map Prod.fst := by
      by_cases hcase : (true && !C.isEmpty) = true
      · rw [if_pos hcase] at hp'
        exact rerank_fst_mem query C k p hp'
      · rw [if_neg hcase] at hp'
        exact List.mem_map_of_mem Prod.fst hp'
    cases hdocs : docs.isEmpty
    · rw [hCdef, searchCandidates_hybrid pyHash docs getScores adapter query
        (expand_query query) k true (some fd) hdocs] at hpC
      rcases List.mem_map.mp hpC with ⟨pc, hpc, hfst⟩
      rcases combineResults_fst_mem pyHash _ _ _ pc hpc with hsem | hbm
      · rw [semantic_search_fst] at hsem
        rcases List.mem_map.mp hsem with ⟨a, ha, haf⟩
        rw [← hfst, ← haf]
        exact hA a ha
      · rcases List.mem_map.mp hbm with ⟨b, hb, hbf⟩
        rw [← hfst, ← hbf]
        exact bmFiltered_matches fd _ b hb
    · rw [hCdef, searchCandidates_fallback pyHash docs getScores adapter query
        (expand_query query) k true (some fd) hdocs,
        semantic_search_fst] at hpC
      rcases List.mem_map.mp hpC with ⟨a, ha, haf⟩
      rw [← haf]
      exact hA a ha
  · intro d kv hkv hnone
    unfold matchesFilter
    rw [List.all_eq_false]
    refine ⟨kv, hkv, ?_⟩
    rw [hnone]
    simp

/-- Witness for C9 (amended): with a filter-honoring adapter, every returned
document matches the filter, and a missing key is a non-match. -/
theorem C9_amended_witness :
    (∀ d ∈ search hash0 [c9WitDoc] (fun _ => [1])
        (fun _ _ _ => [(c9WitDoc, 0)]) "m" 1 true true
        (some [("category", "x")]),
      matchesFilter [("category", "x")] d = true) ∧
    (∀ (d : Document) (kv : String × String), kv ∈ [("category", "x")] →
      metaGet d kv.1 = none →
      matchesFilter [("category", "x")] d = false) :=
  C9_amended_filter_correctness hash0 [c9WitDoc] (fun _ => [1])
    (fun _ _ _ => [(c9WitDoc, 0)]) "m" 1 [("category", "x")]
    (by decide!)

/-- C2 counterexample: on a two-document corpus where both documents score
equally (score vector `[1, 1]`), `bm25_search` returns the document at
index 1 *before* the one at index 0 — the tie is broken by *descending*
original index (an artifact of reversing the ascending argsort), not by
Corpus insertion order as the claim states. -/
theorem C2_counterexample :
    bm25_search [cexDocA, cexDocB] (fun _ => [1, 1]) "c" 10 =
      [(cexDocB, 1), (cexDocA, 1)] ∧ cexDocA ≠ cexDocB := by decide!

/-- C2 (amended): `bm25_search` returns only documents with strictly positive
BM25 score, ordered by descending score, and when two documents have equal
scores the one *later* in Corpus insertion order comes first (descending
original index — the order induced by `np.argsort(scores)[::-1]` with a
stable ascending argsort). The returned (rescaled) scores are weakly
descending. -/
theorem C2_amended_bm25_order (docs : List Document)
    (getScores : List String → List ℚ) (q : String) (k : ℕ)
    (h : docs.isEmpty = false) :
    (bm25TopIdx (getScores (tokenize q)) k).Pairwise (fun i j =>
      (getScores (tokenize q)).getD j 0 < (getScores (tokenize q)).getD i 0 ∨
      ((getScores (tokenize q)).getD i 0 = (getScores (tokenize q)).getD j 0 ∧
        j < i)) ∧
    (∀ i ∈ bm25TopIdx (getScores (tokenize q)) k,
      0 < (getScores (tokenize q)).getD i 0) ∧
    (bm25_search docs getScores q k).map Prod.fst =
      (bm25TopIdx (getScores (tokenize q)) k).map (fun i => docs.getD i default) ∧
    (bm25_search docs getScores q k).Pairwise (fun a b => b.2 ≤ a.2) := by
  refine ⟨bm25TopIdx_pairwise _ _, fun i hi => (bm25TopIdx_mem _ _ i hi).1, ?_, ?_⟩
  · rcases hR : bm25Raw docs (getScores (tokenize q)) k with _ | ⟨r, rs⟩
    · have hidx : bm25TopIdx (getScores (tokenize q)) k = [] :=
        List.map_eq_nil_iff.mp hR
      rw [bm25_search_eq_nil docs getScores q k h hR, hidx]
      rfl
    · rw [bm25_search_eq_cons docs getScores q k r rs h hR]
      have h1 : ((r :: rs).map (fun p => (p.1, p.2 / r.2))).map Prod.fst =
          (r :: rs).map Prod.fst := by
        rw [List.map_map]; rfl
      rw [h1, ← hR]
      unfold bm25Raw
      rw [List.map_map]
      rfl
  · rcases hR : bm25Raw docs (getScores (tokenize q)) k with _ | ⟨r, rs⟩
    · rw [bm25_search_eq_nil docs getScores q k h hR]
      exact List.Pairwise.nil
    · rw [bm25_search_eq_cons docs getScores q k r rs h hR]
      have hpos : 0 < r.2 :=
        bm25Raw_pos docs _ k r (hR ▸ List.mem_cons_self r rs)
      have hs := bm25Raw_sorted docs (getScores (tokenize q)) k
      rw [hR] at hs
      rw [List.pairwise_map]
      refine hs.imp ?_
      intro a b hab
      show b.2 / r.2 ≤ a.2 / r.2
      gcongr

/-- Witness for C2 (amended) on the two-document tie corpus. -/
theorem C2_amended_witness :
    (bm25_search [cexDocA, cexDocB] (fun _ => [1, 1]) "c" 10).map Prod.fst =
      (bm25TopIdx [1, 1] 10).map (fun i => [cexDocA, cexDocB].getD i default) :=
  (C2_amended_bm25_order [cexDocA, cexDocB] (fun _ => [1, 1]) "c" 10 rfl).2.2.1

/-- C10: whenever `bm25_search` returns a non-empty list, the returned
scores are the raw positive BM25 scores divided by their maximum `m`; hence
every returned score lies in `(0, 1]`, the top result's score is exactly 1,
and the rescaling (division by a single positive constant) preserves the
relative order of the raw scores. -/
theorem C10_bm25_normalization (docs : List Document)
    (getScores : List String → List ℚ) (q : String) (k : ℕ)
    (hne : bm25_search docs getScores q k ≠ []) :
    ∃ raw : List ScoredDoc, ∃ m : ℚ,
      0 < m ∧
      m ∈ raw.map Prod.snd ∧
      (∀ s ∈ raw.map Prod.snd, 0 < s ∧ s ≤ m) ∧
      bm25_search docs getScores q k = raw.map (fun p => (p.1, p.2 / m)) ∧
      (∀ p ∈ bm25_search docs getScores q k, 0 < p.2 ∧ p.2 ≤ 1) ∧
      (bm25_search docs getScores q k).head?.map Prod.snd = some 1 := by
  have hde : docs.isEmpty = false := by
    cases hcase : docs.isEmpty
    · rfl
    · exfalso
      apply hne
      unfold bm25_search
      rw [hcase]
      rfl
  rcases hR : bm25Raw docs (getScores (tokenize q)) k with _ | ⟨r, rs⟩
  · exact absurd (bm25_search_eq_nil docs getScores q k hde hR) hne
  · have hpos : 0 < r.2 :=
      bm25Raw_pos docs _ k r (hR ▸ List.mem_cons_self r rs)
    have hs := bm25Raw_sorted docs (getScores (tokenize q)) k
    rw [hR] at hs
    have hler : ∀ p ∈ r :: rs, p.2 ≤ r.2 := by
      intro p hp
      rcases List.mem_cons.mp hp with heq | hp'
      · rw [heq]
      · exact (List.pairwise_cons.mp hs).1 p hp'
    have hposall : ∀ p ∈ r :: rs, 0 < p.2 := by
      intro p hp
      exact bm25Raw_pos docs _ k p (hR ▸ hp)
    have hres := bm25_search_eq_cons docs getScores q k r rs hde hR
    refine ⟨r :: rs, r.2, hpos, ?_, ?_, hres, ?_, ?_⟩
    · exact List.mem_map.mpr ⟨r, List.mem_cons_self r rs, rfl⟩
    · intro s hsm
      rcases List.mem_map.mp hsm with ⟨p, hp, rfl⟩
      exact ⟨hposall p hp, hler p hp⟩
    · intro p hp
      rw [hres] at hp
      rcases List.mem_map.mp hp with ⟨p0, hp0, rfl⟩
      exact ⟨div_pos (hposall p0 hp0) hpos,
        (div_le_one hpos).mpr (hler p0 hp0)⟩
    · rw [hres]
      simp only [List.map_cons, List.head?_cons, Option.map_some]
      rw [div_self (ne_of_gt hpos)]
      rfl

/-- Witness for C10: a one-document corpus with raw score 2 yields a
non-empty result whose top score is exactly 1. -/
theorem C10_witness :
    (bm25_search [w10Doc] (fun _ => [2]) "q" 5).head?.map Prod.snd = some 1 := by
  obtain ⟨raw, m, -, -, -, -, -, h6⟩ :=
    C10_bm25_normalization [w10Doc] (fun _ => [2]) "q" 5 (by decide!)
  exact h6

/-- C1 counterexample: with an empty corpus (semantic-only fallback path)
and a dense store returning the same document twice, `search` returns two
Documents with the same fingerprint — the returned fingerprints are not
pairwise distinct, refuting the claim on the fallback path. -/
theorem C1_counterexample :
    ¬ ((search hash0 [] (fun _ => []) (fun _ _ _ => [(c1DupDoc, 0), (c1DupDoc, 0)])
        "a" 2 true true none).map (getDocId hash0)).Pairwise
      (fun a b => a ≠ b) := by decide!

/-- C1 (amended): `search` always returns at most `k` Documents, and the
returned fingerprints are pairwise distinct on the hybrid path
unconditionally; on the semantic-only fallback path (empty corpus) they are
distinct provided the dense adapter's returned fingerprints are distinct
(the code deduplicates only in the fusion stage, which the fallback path
skips). -/
theorem C1_amended_search_bounded_nodup (pyHash : String → Int)
    (docs : List Document) (getScores : List String → List ℚ)
    (adapter : String → ℕ → Option MetaFilter → List ScoredDoc)
    (query : String) (k : ℕ) (fd : Option MetaFilter)
    (hA : docs = [] →
      ((adapter query (k * 2) fd).map (fun p => getDocId pyHash p.1)).Nodup) :
    (search pyHash docs getScores adapter query k true true fd).length ≤ k ∧
    ((search pyHash docs getScores adapter query k true true fd).map
      (getDocId pyHash)).Nodup := by
  rw [search_eq]
  set C := searchCandidates pyHash docs getScores adapter query
    (expand_query query) k true true fd with hCdef
  have hC : (C.map (fun p => getDocId pyHash p.1)).Nodup := by
    cases hd : docs.isEmpty
    · rw [hCdef, searchCandidates_hybrid pyHash docs getScores adapter query
        (expand_query query) k true fd hd]
      exact combineResults_ids_nodup pyHash _ _ _
    · rw [hCdef, searchCandidates_fallback pyHash docs getScores adapter query
        (expand_query query) k true fd hd]
      have hids := semantic_search_ids pyHash adapter query
        (if true then k * 2 else k) fd
      rw [hids]
      exact hA (List.isEmpty_iff.mp hd)
  have hR : ((if (true && !C.isEmpty) = true then rerank query C k else C).map
      (fun p => getDocId pyHash p.1)).Nodup := by
    by_cases hcase : (true && !C.isEmpty) = true
    · rw [if_pos hcase]
      exact rerank_ids_nodup pyHash query C k hC
    · rw [if_neg hcase]
      exact hC
  constructor
  · rw [List.length_map, List.length_take]
    exact min_le_left _ _
  · have heq : (((if (true && !C.isEmpty) = true then rerank query C k
        else C).take k).map Prod.fst).map (getDocId pyHash) =
        ((if (true && !C.isEmpty) = true then rerank query C k
          else C).take k).map (fun p => getDocId pyHash p.1) := by
      rw [List.map_map]
      rfl
    rw [heq]
    exact hR.sublist ((List.take_sublist k _).map _)

/-- Witness for C1 (amended) on a one-document corpus (hybrid path, so the
adapter hypothesis is vacuous). -/
theorem C1_amended_witness :
    (search hash0 [c1WitDoc] (fun _ => [1]) (fun _ _ _ => [])
      "w" 1 true true none).length ≤ 1 ∧
    ((search hash0 [c1WitDoc] (fun _ => [1]) (fun _ _ _ => [])
      "w" 1 true true none).map (getDocId hash0)).Nodup :=
  C1_amended_search_bounded_nodup hash0 [c1WitDoc] (fun _ => [1])
    (fun _ _ _ => []) "w" 1 none (fun h => List.noConfusion h)

/-- C3 counterexample: the semantic document at rank 30 (fused score
`0.6/90 = 1/150`) ties with the BM25 document at rank 0 (fused score
`0.4/60 = 1/150`), and the fused output places the *semantic* document first
(positions 30 and 31) — because `_combine_results` processes the semantic
list first, its first-encounter order takes priority, contrary to the
claimed lexical priority. -/
theorem C3_counterexample :
    ((combineResults hash0 c3SemList c3BmList 40).map Prod.fst).getD 30 default
      = c3SemDoc 30 ∧
    ((combineResults hash0 c3SemList c3BmList 40).map Prod.fst).getD 31 default
      = c3BmDoc ∧
    ((combineResults hash0 c3SemList c3BmList 40).map Prod.snd).getD 30 0 =
      ((combineResults hash0 c3SemList c3BmList 40).map Prod.snd).getD 31 0 ∧
    c3SemDoc 30 ≠ c3BmDoc := by decide!

/-- C3 (amended): the fused list is sorted by strictly descending
accumulated score, and ties break by the order fingerprints were first
encountered — with the *semantic* (dense) list's order taking priority,
since `_combine_results` processes the semantic list first. (`fusedPairs`
lists the fused entries in exactly that first-encounter order, so a smaller
`indexOf` in it means an earlier first encounter.) -/
theorem C3_amended_fusion_tiebreak (pyHash : String → Int)
    (semList bmList : List ScoredDoc) (k : ℕ) :
    (combineResults pyHash semList bmList k).Pairwise (fun a b =>
      b.2 < a.2 ∨ (a.2 = b.2 ∧
        idxOfEq a (fusedPairs pyHash semList bmList) <
          idxOfEq b (fusedPairs pyHash semList bmList))) := by
  have h := pySortDesc_pairwise_pos Prod.snd (fusedPairs pyHash semList bmList)
    (fusedPairs_nodup pyHash semList bmList)
  exact h.sublist (List.take_sublist k _)

/-- A list whose ranks carry exactly one occurrence of a fingerprint
contributes exactly its weighted reciprocal rank. -/
theorem filter_rank_singleton (l : List (ℕ × ScoredDoc)) (r : ℕ) (w : ℚ)
    (hl : l.map Prod.fst = [r]) :
    (l.map (fun e => w * (1 / ((e.1 : ℚ) + 60)))).sum =
      w * (1 / ((r : ℚ) + 60)) := by
  cases l with
  | nil => exact absurd hl (by simp)
  | cons p t =>
    cases t with
    | nil =>
      simp only [List.map_cons, List.map_nil, List.sum_cons, List.sum_nil,
        add_zero]
      have hp : p.1 = r := by simpa using hl
      rw [hp]
    | cons q t' =>
      exfalso
      have hlen := congrArg List.length hl
      simp at hlen

/-- C6: RRF monotonicity. If fingerprints `idA` and `idB` each occur exactly
once in the semantic list and once in the BM25 list, and `idA`'s rank is
strictly smaller in both lists, then `idA`'s accumulated fused score is at
least `idB`'s. -/
theorem C6_rrf_monotonicity (pyHash : String → Int)
    (semList bmList : List ScoredDoc) (idA idB : String)
    (rA1 rB1 rA2 rB2 : ℕ)
    (hA1 : (semList.enum.filter
      (fun e => getDocId pyHash e.2.1 == idA)).map Prod.fst = [rA1])
    (hB1 : (semList.enum.filter
      (fun e => getDocId pyHash e.2.1 == idB)).map Prod.fst = [rB1])
    (hA2 : (bmList.enum.filter
      (fun e => getDocId pyHash e.2.1 == idA)).map Prod.fst = [rA2])
    (hB2 : (bmList.enum.filter
      (fun e => getDocId pyHash e.2.1 == idB)).map Prod.fst = [rB2])
    (h1 : rA1 < rB1) (h2 : rA2 < rB2) :
    scoreOf (fusedAcc pyHash semList bmList).scores idB ≤
      scoreOf (fusedAcc pyHash semList bmList).scores idA := by
  rw [fusedAcc_scoreOf, fusedAcc_scoreOf,
    filter_rank_singleton _ _ _ hA1, filter_rank_singleton _ _ _ hB1,
    filter_rank_singleton _ _ _ hA2, filter_rank_singleton _ _ _ hB2]
  have c1 : ((rA1 : ℚ)) ≤ rB1 := Nat.cast_le.mpr h1.le
  have c2 : ((rA2 : ℚ)) ≤ rB2 := Nat.cast_le.mpr h2.le
  have e1 : (1 : ℚ) / ((rB1 : ℚ) + 60) ≤ 1 / ((rA1 : ℚ) + 60) :=
    one_div_le_one_div_of_le (by positivity) (by linarith)
  have e2 : (1 : ℚ) / ((rB2 : ℚ) + 60) ≤ 1 / ((rA2 : ℚ) + 60) :=
    one_div_le_one_div_of_le (by positivity) (by linarith)
  have m1 : (3/5 : ℚ) * (1 / ((rB1 : ℚ) + 60)) ≤ 3/5 * (1 / ((rA1 : ℚ) + 60)) :=
    mul_le_mul_of_nonneg_left e1 (by norm_num)
  have m2 : (2/5 : ℚ) * (1 / ((rB2 : ℚ) + 60)) ≤ 2/5 * (1 / ((rA2 : ℚ) + 60)) :=
    mul_le_mul_of_nonneg_left e2 (by norm_num)
  exact add_le_add m1 m2

/-- Witness for C6: with both documents in both lists and `c6DocA` ranked 0
to `c6DocB`'s 1 in each, `c6DocA`'s fused score dominates. -/
theorem C6_witness :
    scoreOf (fusedAcc hash0 [(c6DocA, 1), (c6DocB, 1)]
      [(c6DocA, 1), (c6DocB, 1)]).scores (getDocId hash0 c6DocB) ≤
    scoreOf (fusedAcc hash0 [(c6DocA, 1), (c6DocB, 1)]
      [(c6DocA, 1), (c6DocB, 1)]).scores (getDocId hash0 c6DocA) :=
  C6_rrf_monotonicity hash0 _ _ _ _ 0 1 0 1
    (by decide!) (by decide!) (by decide!) (by decide!)
    (by decide) (by decide)

/-- The code's conditional increment equals the spec's sum of two bonuses. -/
theorem rerankScore_eq_bonus (query : String) (d : Document) :
    rerankScore query d = rerankBonus query d := by
  unfold rerankScore rerankBonus
  by_cases hc : strContains (pyLower d.content) (pyLower query)
  · rw [if_pos hc, if_pos hc]
  · rw [if_neg hc, if_neg hc, add_zero]

/-- C8: `rerank` assigns each candidate
`final_score = fused_score + min(overlap * 0.02, 0.20) + (0.15 or 0)`
(overlap counted between the query's token set and the token set of the
first 500 content characters; the phrase test against the full lowercased
content), re-sorts descending by final score, truncates to `top_k`,
introduces no document not in the input, and returns exactly
`min(top_k, input size)` documents. -/
theorem C8_rerank_spec (query : String) (documents : List ScoredDoc)
    (top_k : ℕ) :
    ∃ full : List ScoredDoc,
      full.Perm (documents.map (fun p => (p.1, p.2 + rerankBonus query p.1))) ∧
      full.Pairwise (fun a b => b.2 ≤ a.2) ∧
      rerank query documents top_k = full.take top_k ∧
      (rerank query documents top_k).length = min top_k documents.length ∧
      (∀ p ∈ rerank query documents top_k, p.1 ∈ documents.map Prod.fst) := by
  have hfull : rerank query documents top_k =
      (pySortDesc Prod.snd
        (documents.map (fun p => (p.1, p.2 + rerankScore query p.1)))).take
          top_k := rfl
  refine ⟨pySortDesc Prod.snd
    (documents.map (fun p => (p.1, p.2 + rerankScore query p.1))),
    ?_, pySortDesc_sorted _ _, hfull, ?_, rerank_fst_mem query documents top_k⟩
  · have hmap : documents.map (fun p => (p.1, p.2 + rerankScore query p.1)) =
        documents.map (fun p => (p.1, p.2 + rerankBonus query p.1)) :=
      List.map_congr_left (fun p _ => by rw [rerankScore_eq_bonus])
    have h := pySortDesc_perm Prod.snd
      (documents.map (fun p => (p.1, p.2 + rerankScore query p.1)))
    exact h.trans (by rw [hmap])
  · rw [hfull, List.length_take, (pySortDesc_perm Prod.snd _).length_eq,
      List.length_map]

/-- C7: the dense adapter's distance `d ≥ 0` is normalized to
`s = 1 / (1 + d)`; the similarity lies in `(0, 1]` and is strictly
decreasing in the distance. (Arithmetic is modelled exactly over `ℚ`.) -/
theorem C7_similarity_normalization :
    (∀ d : ℚ, 0 ≤ d → 0 < normalizeSim d ∧ normalizeSim d ≤ 1) ∧
    (∀ d1 d2 : ℚ, 0 ≤ d1 → d1 < d2 → normalizeSim d2 < normalizeSim d1) := by
  constructor
  · intro d hd
    unfold normalizeSim
    constructor
    · positivity
    · rw [div_le_one (by linarith)]
      linarith
  · intro d1 d2 h1 h2
    unfold normalizeSim
    rw [div_lt_div_iff₀ (by linarith) (by linarith)]
    linarith

/-- Witness for C7 at distance 3. -/
theorem C7_witness : 0 < normalizeSim 3 ∧ normalizeSim 3 ≤ 1 :=
  C7_similarity_normalization.1 3 (by norm_num)

/-- Provenance of each collected expansion term: it comes from a table entry
whose canonical term occurs in `ql`, and is not itself present in `ql`. -/
theorem expandFold_mem (ql : String) (l : List (String × List String))
    (acc : List String) (t : String)
    (ht : t ∈ l.foldl
      (fun acc p =>
        if strContains ql p.1 then
          acc ++ p.2.filter (fun syn => !strContains ql (pyLower syn))
        else acc) acc) :
    t ∈ acc ∨ ∃ p ∈ l, strContains ql p.1 = true ∧ t ∈ p.2 ∧
      strContains ql (pyLower t) = false := by
  induction l generalizing acc with
  | nil => exact Or.inl ht
  | cons hd tl ih =>
    simp only [List.foldl_cons] at ht
    rcases ih _ ht with h | ⟨p, hp, h⟩
    · by_cases hc : strContains ql hd.1
      · rw [if_pos hc] at h
        rcases List.mem_append.mp h with h' | h'
        · exact Or.inl h'
        · refine Or.inr ⟨hd, List.mem_cons_self hd tl, hc, ?_, ?_⟩
          · exact (List.mem_filter.mp h').1
          · simpa using (List.mem_filter.mp h').2
      · rw [if_neg hc] at h
        exact Or.inl h
    · exact Or.inr ⟨p, List.mem_cons_of_mem hd hp, h⟩

/-- If no canonical term occurs in `ql`, the loop collects nothing. -/
theorem expandFold_nil (ql : String) (l : List (String × List String))
    (acc : List String) (h : ∀ p ∈ l, strContains ql p.1 = false) :
    l.foldl
      (fun acc p =>
        if strContains ql p.1 then
          acc ++ p.2.filter (fun syn => !strContains ql (pyLower syn))
        else acc) acc = acc := by
  induction l generalizing acc with
  | nil => rfl
  | cons hd tl ih =>
    simp only [List.foldl_cons]
    rw [if_neg (by simp [h hd (List.mem_cons_self hd tl)]),
      ih acc (fun p hp => h p (List.mem_cons_of_mem hd hp))]

/-- C4: `expand_query` is additive-only and bounded. If no canonical
`LEGAL_SYNONYMS` term occurs as a substring of the lowercased query, the
query is returned unchanged; otherwise the result is the original query
followed by at most 5 appended synonym terms (each taken from a matched
table entry and not already present case-insensitively in the query),
space-joined. The original query is always a prefix of the result. -/
theorem C4_expand_query_additive (q : String) :
    ((∀ p ∈ LEGAL_SYNONYMS, strContains (pyLower q) p.1 = false) →
      expand_query q = q) ∧
    ∃ terms : List String,
      terms = (expandTerms q).take 5 ∧
      terms.length ≤ 5 ∧
      (∀ t ∈ terms, ∃ p ∈ LEGAL_SYNONYMS, strContains (pyLower q) p.1 = true ∧
        t ∈ p.2 ∧ strContains (pyLower q) (pyLower t) = false) ∧
      expand_query q =
        (if terms.isEmpty then q else q ++ " " ++ strJoin " " terms) := by
  constructor
  · intro h
    unfold expand_query
    rw [show expandTerms q = [] from expandFold_nil (pyLower q) LEGAL_SYNONYMS [] h]
    rfl
  · refine ⟨(expandTerms q).take 5, rfl, ?_, ?_, ?_⟩
    · exact List.length_take_le 5 (expandTerms q)
    · intro t ht
      have ht' : t ∈ expandTerms q := List.mem_of_mem_take ht
      rcases expandFold_mem (pyLower q) LEGAL_SYNONYMS [] t ht' with h | h
      · exact absurd h (List.not_mem_nil t)
      · exact h
    · unfold expand_query
      cases hE : expandTerms q with
      | nil => rfl
      | cons a l => rfl

/-- Witness for C4: a query matching no canonical term is unchanged, and the
"tax" query gains exactly the five allowed terms. -/
theorem C4_witness :
    expand_query "zz" = "zz" ∧
    ∃ terms : List String,
      terms = (expandTerms "tax").take 5 ∧
      terms.length ≤ 5 ∧
      (∀ t ∈ terms, ∃ p ∈ LEGAL_SYNONYMS,
        strContains (pyLower "tax") p.1 = true ∧ t ∈ p.2 ∧
        strContains (pyLower "tax") (pyLower t) = false) ∧
      expand_query "tax" =
        (if terms.isEmpty then "tax" else "tax" ++ " " ++ strJoin " " terms) :=
  ⟨(C4_expand_query_additive "zz").1 (by decide), (C4_expand_query_additive "tax").2⟩

/-- C5: `search` routes the expanded query only to the BM25 leg; the dense
leg and the reranker see the unexpanded original query. Formally, `search`
coincides with the staged pipeline whose dense-stage and rerank-stage queries
are the original query and whose lexical-stage query is `expand_query` of it,
for every query, `k`, flag combination, and filter. -/
theorem C5_staged_queries (pyHash : String → Int) (docs : List Document)
    (getScores : List String → List ℚ)
    (adapter : String → ℕ → Option MetaFilter → List ScoredDoc)
    (query : String) (k : ℕ) (use_hybrid use_rerank : Bool)
    (filter_dict : Option MetaFilter) :
    search pyHash docs getScores adapter query k use_hybrid use_rerank filter_dict =
      searchStaged pyHash docs getScores adapter
        query (expand_query query) query k use_hybrid use_rerank filter_dict :=
  rfl

end PakLaw
